import Mathlib

/-!
Verification of the manifest generator (`generate_manifest.py`).

The program reads a JSON configuration, walks the four fixed subdirectories
`mods`, `resourcepacks`, `shaderpacks`, `config` beneath a base directory,
computes a SHA-256 digest, size and download URL for every regular file found,
and writes a single `manifest.json` document into the base directory.

This file gives a shallow embedding of that program:
- SHA-256 is implemented in full (padding, message schedule, compression),
  over bytes represented as `Nat`.
- `hashlib`'s incremental interface is modelled by its documented contract:
  `m.update(a); m.update(b)` is equivalent to `m.update(a ++ b)`, so the
  hasher state is the accumulated byte sequence.
- The directory tree is a mutual inductive (`Entry` / `EList`); the order of
  an `EList` models the OS directory-listing order that `os.walk` reports.
- Reading a file can raise `IOError`; a file whose content is `none` is a
  file whose open/read raises.  Fallible code returns `Except`.
- `main` is modelled over the three possible states of the configuration
  file: missing, present-but-invalid-JSON, parsed.
-/

/-! ## SHA-256 over byte lists -/

/-- Truncation to a 32-bit word. -/
def w32 (x : Nat) : Nat := x % 4294967296

/-- Right rotation of a 32-bit word by `n`. -/
def rotr (n x : Nat) : Nat := w32 (x / 2 ^ n + x % 2 ^ n * 2 ^ (32 - n))

/-- The 64 SHA-256 round constants. -/
def shaK : List Nat :=
  [1116352408, 1899447441, 3049323471, 3921009573, 961987163, 1508970993,
   2453635748, 2870763221, 3624381080, 310598401, 607225278, 1426881987,
   1925078388, 2162078206, 2614888103, 3248222580, 3835390401, 4022224774,
   264347078, 604807628, 770255983, 1249150122, 1555081692, 1996064986,
   2554220882, 2821834349, 2952996808, 3210313671, 3336571891, 3584528711,
   113926993, 338241895, 666307205, 773529912, 1294757372, 1396182291,
   1695183700, 1986661051, 2177026350, 2456956037, 2730485921, 2820302411,
   3259730800, 3345764771, 3516065817, 3600352804, 4094571909, 275423344,
   430227734, 506948616, 659060556, 883997877, 958139571, 1322822218,
   1537002063, 1747873779, 1955562222, 2024104815, 2227730452, 2361852424,
   2428436474, 2756734187, 3204031479, 3329325298]

/-- The initial SHA-256 hash state. -/
def shaInit : List Nat :=
  [1779033703, 3144134277, 1013904242, 2773480762,
   1359893119, 2600822924, 528734635, 1541459225]

/-- One message-schedule extension step; `w` holds the schedule so far, most
recent word first. -/
def extStep (w : List Nat) : List Nat :=
  let g := fun i => w.getD i 0
  let s0 := rotr 7 (g 14) ^^^ rotr 18 (g 14) ^^^ (g 14 / 2 ^ 3)
  let s1 := rotr 17 (g 1) ^^^ rotr 19 (g 1) ^^^ (g 1 / 2 ^ 10)
  w32 (g 15 + s0 + g 6 + s1) :: w

/-- The 64-word message schedule of a block given as 16 words. -/
def schedule (ws : List Nat) : List Nat :=
  ((List.range 48).foldl (fun w _ => extStep w) ws.reverse).reverse

/-- One SHA-256 compression round. -/
def roundStep (st : List Nat) (kw : Nat × Nat) : List Nat :=
  let a := st.getD 0 0
  let b := st.getD 1 0
  let c := st.getD 2 0
  let d := st.getD 3 0
  let e := st.getD 4 0
  let f := st.getD 5 0
  let g := st.getD 6 0
  let hh := st.getD 7 0
  let s1 := rotr 6 e ^^^ rotr 11 e ^^^ rotr 25 e
  let chEFG := (e &&& f) ^^^ ((e ^^^ 4294967295) &&& g)
  let t1 := w32 (hh + s1 + chEFG + kw.1 + kw.2)
  let s0 := rotr 2 a ^^^ rotr 13 a ^^^ rotr 22 a
  let mjABC := (a &&& b) ^^^ (a &&& c) ^^^ (b &&& c)
  let t2 := w32 (s0 + mjABC)
  [w32 (t1 + t2), a, b, c, w32 (d + t1), e, f, g]

/-- Big-endian 32-bit words from a byte list. -/
def toWords : List Nat → List Nat
  | b0 :: b1 :: b2 :: b3 :: rest => (b0 * 16777216 + b1 * 65536 + b2 * 256 + b3) :: toWords rest
  | _ => []

/-- Compression of one 64-byte block into the hash state. -/
def compressBlock (st : List Nat) (block : List Nat) : List Nat :=
  let final := (shaK.zip (schedule (toWords block))).foldl roundStep st
  List.zipWith (fun x y => w32 (x + y)) st final

/-- `n` big-endian bytes of `x`. -/
def beBytes : Nat → Nat → List Nat
  | 0, _ => []
  | n + 1, x => beBytes n (x / 256) ++ [x % 256]

/-- SHA-256 padding: a `0x80` byte, zeros to 56 mod 64, the bit length in
8 big-endian bytes. -/
def padBytes (msg : List Nat) : List Nat :=
  msg ++ 0x80 :: List.replicate ((119 - msg.length % 64) % 64) 0 ++ beBytes 8 (msg.length * 8)

/-- Cut a list into consecutive chunks of `n` elements (the last one may be
shorter); fuel-recursive so that it reduces definitionally.  With `n = 0` the
result is empty, mirroring that Python's `f.read(0)` returns the empty bytes
object, which ends the reading loop at once. -/
def chunksFuel : Nat → Nat → List Nat → List (List Nat)
  | 0, _, _ => []
  | _, 0, _ => []
  | _, _, [] => []
  | fuel + 1, n, l => l.take n :: chunksFuel fuel n (l.drop n)

/-- The chunks of `l` of size `n`, as delivered by repeated `f.read(n)`. -/
def chunks (n : Nat) (l : List Nat) : List (List Nat) := chunksFuel l.length n l

/-- The SHA-256 state after absorbing `msg`, as eight 32-bit words. -/
def sha256Words (msg : List Nat) : List Nat :=
  (chunks 64 (padBytes msg)).foldl compressBlock shaInit

/-- Lower-case hexadecimal digit. -/
def hexDigit (n : Nat) : Char := if n < 10 then Char.ofNat (48 + n) else Char.ofNat (87 + n)

/-- `n` lower-case hex digits of `x`, most significant first. -/
def hexWord : Nat → Nat → List Char
  | 0, _ => []
  | n + 1, x => hexWord n (x / 16) ++ [hexDigit (x % 16)]

/-- The SHA-256 digest of a byte sequence as a 64-character hex string
(`hashlib.sha256(msg).hexdigest()`). -/
def sha256Hex (msg : List Nat) : String :=
  String.mk ((sha256Words msg).map (hexWord 8)).flatten

/-! ## `sha256_file` (source lines 18-23)

`hashlib`'s documented contract is that feeding the data in pieces via
`update` is equivalent to feeding the concatenation, so the hasher object is
modelled by the byte sequence it has absorbed so far. -/

/-- `h.update(chunk)`: the hasher has absorbed the extra chunk. -/
def hashUpdate (acc chunk : List Nat) : List Nat := acc ++ chunk

/-- `sha256_file` generalised over the chunk size used by `f.read`:
repeatedly read a chunk, feed it to the hasher, and take the hex digest. -/
def sha256FileChunked (chunkSize : Nat) (content : List Nat) : String :=
  sha256Hex ((chunks chunkSize content).foldl hashUpdate [])

/-- `sha256_file` from the source: chunk size 8192. -/
def sha256_file (content : List Nat) : String := sha256FileChunked 8192 content

/-! ## The directory tree -/

mutual
/-- A directory entry: a regular file with its byte content, or a
subdirectory.  A file content of `none` is a file whose open or read raises
`IOError` (permission denied, removed during the scan). -/
inductive Entry where
  | file (name : String) (content : Option (List Nat)) : Entry
  | dir (name : String) (entries : EList) : Entry

/-- A directory listing, in the order the operating system reports it. -/
inductive EList where
  | nil : EList
  | cons (e : Entry) (rest : EList) : EList
end

/-- The name of an entry. -/
def Entry.name : Entry → String
  | .file n _ => n
  | .dir n _ => n

/-- The names in a listing, in order. -/
def namesL : EList → List String
  | .nil => []
  | .cons e r => e.name :: namesL r

/-! ## `os.walk` (source lines 31-33)

`os.walk` with the default top-down order yields, for each visited directory,
its regular files first (in listing order) and then recurses into its
subdirectories (in listing order).  Paths are kept as component lists here;
they are joined into strings, with the platform separator, only where the
source builds `rel_path`. -/

/-- The regular files of one listing: `filenames` of the root of `os.walk`. -/
def filesOfL : EList → List (List String × Option (List Nat))
  | .nil => []
  | .cons (.file n c) r => ([n], c) :: filesOfL r
  | .cons (.dir _ _) r => filesOfL r

/-- The files found under the subdirectories of one listing, each path
prefixed with its subdirectory name. -/
def dirsOfL : EList → List (List String × Option (List Nat))
  | .nil => []
  | .cons (.file _ _) r => dirsOfL r
  | .cons (.dir n sub) r =>
    ((filesOfL sub ++ dirsOfL sub).map (fun pc => (n :: pc.1, pc.2))) ++ dirsOfL r

/-- All files below a directory with the given listing, with their paths as
component lists relative to that directory, in `os.walk` top-down order. -/
def walkL (es : EList) : List (List String × Option (List Nat)) :=
  filesOfL es ++ dirsOfL es

/-! ## Path strings -/

/-- Join path components with a separator character (`os.path.join` /
`os.path.relpath` produce exactly this for the walked paths). -/
def joinSepChars (sep : Char) : List String → List Char
  | [] => []
  | [s] => s.data
  | s :: rest => s.data ++ sep :: joinSepChars sep rest

/-- The joined path as a string. -/
def joinSep (sep : Char) (comps : List String) : String :=
  String.mk (joinSepChars sep comps)

/-- One character of `.replace("\\", "/")`. -/
def bsToSlash (c : Char) : Char := if c = '\\' then '/' else c

/-- `.replace("\\", "/")` on a string, character by character. -/
def replaceBS (s : String) : String :=
  String.mk (s.data.map bsToSlash)

/-- `rel_path` as the source computes it: the components joined with the
platform separator, then every backslash replaced by a forward slash. -/
def relPath (sep : Char) (comps : List String) : String :=
  replaceBS (joinSep sep comps)

/-- Python's `s.rstrip('/')`: remove every trailing forward slash. -/
def rstripSlashes (s : String) : String :=
  String.mk (s.data.reverse.dropWhile (fun c => c = '/')).reverse

/-! ## `scan_files` (source lines 25-47) -/

/-- One file record of the manifest. -/
structure FileRec where
  path : String
  sha256 : String
  url : String
  size : Nat
  required : Bool
deriving DecidableEq, Repr

/-- Python's exception values that this program can raise. -/
inductive PyErr where
  | ioError
  | keyError (key : String)
deriving DecidableEq, Repr

/-- The record appended for one readable file (source lines 33-45):
relative path with separators normalised, digest, URL built from the base URL
with trailing slashes stripped, and size. -/
def mkFileRec (sep : Char) (base_url : String) (comps : List String) (content : List Nat) :
    FileRec :=
  let rel := relPath sep comps
  { path := rel
  , sha256 := sha256_file content
  , url := rstripSlashes base_url ++ "/" ++ rel
  , size := content.length
  , required := true }

/-- Process the walked files in order; an unreadable file raises `IOError`
out of `sha256_file` (or `os.path.getsize`), which nothing catches. -/
def buildRecords (sep : Char) (base_url : String) :
    List (List String × Option (List Nat)) → Except PyErr (List FileRec)
  | [] => .ok []
  | (_, none) :: _ => .error .ioError
  | (comps, some c) :: rest =>
    match buildRecords sep base_url rest with
    | .error e => .error e
    | .ok rs => .ok (mkFileRec sep base_url comps c :: rs)

/-- The four hardcoded scan subdirectory names, in source order. -/
def SCAN_DIRS : List String := ["mods", "resourcepacks", "shaderpacks", "config"]

/-- `os.path.isdir(os.path.join(base_dir, d))` followed by the walk: the
listing of the subdirectory named `d`, if present. -/
def findDir (d : String) : EList → Option EList
  | .nil => none
  | .cons (.file _ _) r => findDir d r
  | .cons (.dir n sub) r => if n = d then some sub else findDir d r

/-- The walked files of one scan directory, paths prefixed with its name;
a missing scan directory is skipped (`continue`). -/
def scanOne (base : EList) (d : String) : List (List String × Option (List Nat)) :=
  match findDir d base with
  | none => []
  | some sub => (walkL sub).map (fun pc => (d :: pc.1, pc.2))

/-- Every file the scan visits, in visiting order. -/
def scanListing (base : EList) : List (List String × Option (List Nat)) :=
  SCAN_DIRS.flatMap (scanOne base)

/-- `scan_files`, generalised over the platform path separator. -/
def scanFilesSep (sep : Char) (base : EList) (base_url : String) :
    Except PyErr (List FileRec) :=
  buildRecords sep base_url (scanListing base)

/-- `scan_files(base_dir, base_url)` on a POSIX host, where the separator is
the forward slash; `base` is the tree rooted at `base_dir`. -/
def scan_files (base : EList) (base_url : String) : Except PyErr (List FileRec) :=
  scanFilesSep '/' base base_url

/-! ## `generate` (source lines 49-87) -/

/-- The loader descriptor of the manifest. -/
structure ModLoader where
  type : String
  version : String
deriving DecidableEq, Repr

/-- The manifest document that `generate` serialises to
`<dir>/manifest.json`. -/
structure Manifest where
  mc_version : String
  mod_loader : ModLoader
  files : List FileRec
  java_args : String
  server_address : Option String
deriving DecidableEq, Repr

/-- The parsed configuration document: a JSON object, with `none` for an
absent key.  Only the seven documented keys are modelled. -/
structure Config where
  dir : Option String
  base_url : Option String
  mc_version : Option String
  loader_type : Option String
  loader_version : Option String
  java_args : Option String
  server_address : Option String
deriving DecidableEq, Repr

/-- `config[k]` for a required key: raises `KeyError` when absent. -/
def getRequired (k : String) (v : Option String) : Except PyErr String :=
  match v with
  | none => .error (.keyError k)
  | some s => .ok s

/-- `generate(config)`: read the configuration fields (required ones by
indexing, optional ones with `.get` defaults, the server address normalised
to `None` when empty), scan, and assemble the manifest that is written to
`<dir>/manifest.json`.  `tree` is the directory tree at `config["dir"]`.
An uncaught exception (`KeyError`, `IOError`) is the `.error` case, and then
no manifest is written. -/
def generate (cfg : Config) (tree : EList) : Except PyErr Manifest :=
  match getRequired "dir" cfg.dir with
  | .error e => .error e
  | .ok _ =>
  match getRequired "base_url" cfg.base_url with
  | .error e => .error e
  | .ok base_url =>
  match getRequired "mc_version" cfg.mc_version with
  | .error e => .error e
  | .ok mc_version =>
  let loader_type := cfg.loader_type.getD "vanilla"
  let loader_version := cfg.loader_version.getD ""
  let java_args := cfg.java_args.getD "-Xmx4G -Xms2G"
  let sa := cfg.server_address.getD ""
  let server_address := if sa = "" then none else some sa
  match scan_files tree base_url with
  | .error e => .error e
  | .ok files =>
  .ok { mc_version := mc_version
      , mod_loader := { type := loader_type, version := loader_version }
      , files := files
      , java_args := java_args
      , server_address := server_address }

/-! ## `main` (source lines 89-112) -/

/-- The state of the configuration file at the `--config` path. -/
inductive ConfigFile where
  | missing
  | invalidJson
  | parsed (cfg : Config)

/-- How one invocation of the program ends. -/
inductive RunResult where
  /-- The configuration file does not exist: a diagnostic is printed and
  `sys.exit(1)` is called.  Nothing is written. -/
  | exitMissingConfig
  /-- A required configuration key is absent: a diagnostic naming it is
  printed and `sys.exit(1)` is called.  Nothing is written. -/
  | exitMissingField (key : String)
  /-- `json.load` raised `JSONDecodeError`; the exception is uncaught, the
  interpreter prints a traceback and exits nonzero.  Nothing is written. -/
  | uncaughtJsonError
  /-- An exception escaped `generate` (an `IOError` while hashing); uncaught,
  traceback, nonzero exit.  No manifest is written. -/
  | uncaughtError (e : PyErr)
  /-- The manifest was written to `<dir>/manifest.json` and the process
  exits with status 0. -/
  | finished (m : Manifest)
deriving DecidableEq, Repr

/-- The process exit status of an outcome (CPython exits with status 1 on an
uncaught exception). -/
def RunResult.exitCode : RunResult → Nat
  | .finished _ => 0
  | _ => 1

/-- The manifest written by the run, if any. -/
def RunResult.written : RunResult → Option Manifest
  | .finished m => some m
  | _ => none

/-- Whether the run printed one of the two configuration diagnostics before
exiting (as opposed to dying with a traceback or succeeding). -/
def RunResult.printedConfigDiagnostic : RunResult → Bool
  | .exitMissingConfig => true
  | .exitMissingField _ => true
  | _ => false

/-- Whether a key is present in the configuration object (`key in config`). -/
def hasKey (cfg : Config) (k : String) : Bool :=
  if k = "dir" then cfg.dir.isSome
  else if k = "base_url" then cfg.base_url.isSome
  else if k = "mc_version" then cfg.mc_version.isSome
  else if k = "loader_type" then cfg.loader_type.isSome
  else if k = "loader_version" then cfg.loader_version.isSome
  else if k = "java_args" then cfg.java_args.isSome
  else if k = "server_address" then cfg.server_address.isSome
  else false

/-- The required keys, in the order the source checks them. -/
def requiredKeys : List String := ["dir", "base_url", "mc_version"]

/-- The first required key missing from the configuration, if any. -/
def firstMissing (cfg : Config) : Option String :=
  requiredKeys.find? (fun k => !(hasKey cfg k))

/-- `main()`: check that the configuration file exists (else print and exit
1), parse it (a JSON error is uncaught), check the three required keys in
order (else print and exit 1), then run `generate`.  `tree` is the directory
tree at `config["dir"]`. -/
def mainRun (cf : ConfigFile) (tree : EList) : RunResult :=
  match cf with
  | .missing => .exitMissingConfig
  | .invalidJson => .uncaughtJsonError
  | .parsed cfg =>
    match firstMissing cfg with
    | some k => .exitMissingField k
    | none =>
      match generate cfg tree with
      | .error e => .uncaughtError e
      | .ok m => .finished m

/-! ## Well-formedness of directory trees

Real filesystems guarantee that sibling names are pairwise distinct and that
a file or directory name is nonempty and contains no path separator.  The
predicates below state exactly that; several theorems assume them, as the
spec itself does ("filesystem already guarantees this"). -/

/-- A legal file or directory name: nonempty, no slash, no backslash. -/
def goodName (n : String) : Bool :=
  !(n = "") && n.data.all (fun c => !(c = '/' || c = '\\'))

/-- Every name in the tree is legal. -/
def goodNamesL : EList → Bool
  | .nil => true
  | .cons (.file n _) r => goodName n && goodNamesL r
  | .cons (.dir n sub) r => goodName n && goodNamesL sub && goodNamesL r

/-- Sibling names are pairwise distinct, at every level of the tree. -/
def nodupL : EList → Bool
  | .nil => true
  | .cons (.file n _) r => (namesL r).all (fun m => !(m = n)) && nodupL r
  | .cons (.dir n sub) r => (namesL r).all (fun m => !(m = n)) && nodupL sub && nodupL r

/-- A well-formed directory tree. -/
def wfL (es : EList) : Bool := goodNamesL es && nodupL es

/-! ## Listing-order equivalence of trees

Two trees are listing-equivalent when they are the same tree up to the order
in which each directory reports its entries — the one thing about the scan
that the operating system, not the program, decides. -/

/-- Same tree up to directory-listing order at every level. -/
inductive LEquiv : EList → EList → Prop where
  | nil : LEquiv .nil .nil
  | consFile : ∀ n c r1 r2, LEquiv r1 r2 →
      LEquiv (.cons (.file n c) r1) (.cons (.file n c) r2)
  | consDir : ∀ n s1 s2 r1 r2, LEquiv s1 s2 → LEquiv r1 r2 →
      LEquiv (.cons (.dir n s1) r1) (.cons (.dir n s2) r2)
  | swap : ∀ a b r, LEquiv (.cons a (.cons b r)) (.cons b (.cons a r))
  | trans : ∀ l1 l2 l3, LEquiv l1 l2 → LEquiv l2 l3 → LEquiv l1 l3

/-! ## Decidable equality for run results -/

deriving instance DecidableEq for Except

/-! ## The worked example of the spec (§8) -/

/-- A base directory holding exactly `mods/a.jar` with byte content `"test"`
and the empty file `config/settings.txt`. -/
def exampleTree : EList :=
  .cons (.dir "mods" (.cons (.file "a.jar" (some [0x74, 0x65, 0x73, 0x74])) .nil))
    (.cons (.dir "config" (.cons (.file "settings.txt" (some [])) .nil)) .nil)

set_option maxRecDepth 1000000

/-- Structural induction over listings (the nested recursor, packaged for
direct use). -/
theorem elistInduction (P : EList → Prop) (hnil : P .nil)
    (hfile : ∀ n c r, P r → P (.cons (.file n c) r))
    (hdir : ∀ n sub r, P sub → P r → P (.cons (.dir n sub) r)) :
    ∀ es, P es
  | .nil => hnil
  | .cons (.file n c) r => hfile n c r (elistInduction P hnil hfile hdir r)
  | .cons (.dir n sub) r =>
    hdir n sub r (elistInduction P hnil hfile hdir sub) (elistInduction P hnil hfile hdir r)

/-- Listing equivalence is reflexive. -/
theorem LEquiv.refl : ∀ es, LEquiv es es
  | .nil => .nil
  | .cons (.file n c) r => .consFile n c r r (LEquiv.refl r)
  | .cons (.dir n sub) r => .consDir n sub sub r r (LEquiv.refl sub) (LEquiv.refl r)


/-- C1: on a base directory containing exactly `mods/a.jar` with content
`"test"` and the empty `config/settings.txt`, with base URL
`http://example.com/pack`, `scan_files` produces exactly the two expected
records: the digest of `mods/a.jar` is the SHA-256 of `"test"`
(`9f86d0...a08`), its size 4 and its URL
`http://example.com/pack/mods/a.jar`; the record of `config/settings.txt`
has size 0 and the digest of the empty byte sequence. -/
theorem scan_files_example :
    scan_files exampleTree "http://example.com/pack" =
      .ok [ { path := "mods/a.jar"
            , sha256 := "9f86d081884c7d659a2feaa0c55ad015a3bf4f1b2b0b822cd15d6c15b0f00a08"
            , url := "http://example.com/pack/mods/a.jar"
            , size := 4
            , required := true }
          , { path := "config/settings.txt"
            , sha256 := sha256Hex []
            , url := "http://example.com/pack/config/settings.txt"
            , size := 0
            , required := true } ] ∧
    sha256Hex [] = "e3b0c44298fc1c149afbf4c8996fb92427ae41e4649b934ca495991b7852b855" := by
  constructor <;> decide

/-! ## C4: the chunk size does not affect the digest -/

/-- Folding the hasher over the chunks of `l` absorbs exactly `l`, for any
positive chunk size. -/
theorem foldl_hashUpdate_chunksFuel (n : Nat) (hn : 1 ≤ n) :
    ∀ fuel l acc, List.length l ≤ fuel →
      (chunksFuel fuel n l).foldl hashUpdate acc = acc ++ l := by
  intro fuel
  induction fuel with
  | zero =>
    intro l acc hl
    have : l = [] := List.eq_nil_of_length_eq_zero (Nat.le_zero.mp hl)
    subst this
    simp [chunksFuel]
  | succ fuel ih =>
    intro l acc hl
    obtain ⟨m, rfl⟩ : ∃ m, n = m + 1 := ⟨n - 1, by omega⟩
    cases l with
    | nil => simp [chunksFuel]
    | cons c cs =>
      have hdrop : List.length (List.drop (m + 1) (c :: cs)) ≤ fuel := by
        simp only [List.length_drop, List.length_cons] at hl ⊢
        omega
      simp only [chunksFuel, List.foldl_cons, ih _ _ hdrop, hashUpdate]
      rw [List.append_assoc, List.take_append_drop]

/-- Any positive chunk size yields the one-pass digest. -/
theorem sha256FileChunked_eq_one_pass (n : Nat) (hn : 1 ≤ n) (content : List Nat) :
    sha256FileChunked n content = sha256Hex content := by
  unfold sha256FileChunked chunks
  rw [foldl_hashUpdate_chunksFuel n hn content.length content [] (Nat.le_refl _)]
  rfl

/-- C4: the streamed digest of `sha256_file`, which consumes the file in
8192-byte chunks, equals the SHA-256 digest of the full byte content in one
pass, and the same holds for every chunk size of at least one byte. -/
theorem sha256_file_chunking_irrelevant (content : List Nat) :
    sha256_file content = sha256Hex content ∧
    ∀ n, 1 ≤ n → sha256FileChunked n content = sha256Hex content := by
  refine ⟨?_, fun n hn => sha256FileChunked_eq_one_pass n hn content⟩
  exact sha256FileChunked_eq_one_pass 8192 (by omega) content

/-- Witness for C4 at a concrete file content and chunk size. -/
theorem sha256_file_chunking_irrelevant_witness :
    sha256_file [1, 2, 3] = sha256Hex [1, 2, 3] ∧
    sha256FileChunked 2 [1, 2, 3] = sha256Hex [1, 2, 3] :=
  ⟨(sha256_file_chunking_irrelevant [1, 2, 3]).1,
   (sha256_file_chunking_irrelevant [1, 2, 3]).2 2 (by decide)⟩

/-! ## C10: invalid JSON in the configuration file -/

/-- C10: when the configuration file exists but is not valid JSON, the run
dies with the uncaught parse exception: no manifest is written, neither the
missing-file nor the missing-field diagnostic is printed, and the
required-field check is never reached. -/
theorem invalid_json_uncaught (tree : EList) :
    mainRun .invalidJson tree = .uncaughtJsonError ∧
    (mainRun .invalidJson tree).written = none ∧
    (mainRun .invalidJson tree).printedConfigDiagnostic = false ∧
    (mainRun .invalidJson tree).exitCode = 1 :=
  ⟨rfl, rfl, rfl, rfl⟩

/-! ## C3: exit status and filesystem effect of configuration errors -/

/-- A configuration missing one of the three required keys fails the
required-key check. -/
theorem firstMissing_isSome (cfg : Config)
    (h : cfg.dir = none ∨ cfg.base_url = none ∨ cfg.mc_version = none) :
    ∃ k, firstMissing cfg = some k := by
  obtain ⟨d, b, v, lt, lv, ja, sa⟩ := cfg
  cases d <;> cases b <;> cases v <;>
    simp_all [firstMissing, requiredKeys, hasKey, List.find?]

/-- C3: a missing configuration file, or a parsed configuration lacking one
of `dir`, `base_url`, `mc_version`, ends the run with exit status 1 after a
printed diagnostic and with no manifest written; a run that finishes has
exit status 0. -/
theorem config_errors_exit_one (tree : EList) :
    ((mainRun .missing tree).exitCode = 1 ∧ (mainRun .missing tree).written = none ∧
      (mainRun .missing tree).printedConfigDiagnostic = true) ∧
    (∀ cfg : Config, (cfg.dir = none ∨ cfg.base_url = none ∨ cfg.mc_version = none) →
      (mainRun (.parsed cfg) tree).exitCode = 1 ∧
      (mainRun (.parsed cfg) tree).written = none ∧
      (mainRun (.parsed cfg) tree).printedConfigDiagnostic = true) ∧
    (∀ cf m, mainRun cf tree = .finished m → (mainRun cf tree).exitCode = 0) := by
  refine ⟨⟨rfl, rfl, rfl⟩, ?_, ?_⟩
  · intro cfg h
    obtain ⟨k, hk⟩ := firstMissing_isSome cfg h
    simp [mainRun, hk, RunResult.exitCode, RunResult.written, RunResult.printedConfigDiagnostic]
  · intro cf m hm
    rw [hm]
    rfl

/-- Witness for C3: a configuration with everything missing exits 1 without
writing, and a complete configuration over an empty tree finishes with
exit status 0. -/
theorem config_errors_exit_one_witness :
    ((mainRun (.parsed ⟨none, none, none, none, none, none, none⟩) .nil).exitCode = 1 ∧
      (mainRun (.parsed ⟨none, none, none, none, none, none, none⟩) .nil).written = none ∧
      (mainRun (.parsed ⟨none, none, none, none, none, none, none⟩) .nil).printedConfigDiagnostic
        = true) ∧
    (mainRun (.parsed ⟨some "pack", some "http://u", some "1.20.1", none, none, none, none⟩)
      .nil).exitCode = 0 := by
  refine ⟨(config_errors_exit_one .nil).2.1 _ (Or.inl rfl), ?_⟩
  exact (config_errors_exit_one .nil).2.2
    (.parsed ⟨some "pack", some "http://u", some "1.20.1", none, none, none, none⟩)
    { mc_version := "1.20.1", mod_loader := ⟨"vanilla", ""⟩, files := []
    , java_args := "-Xmx4G -Xms2G", server_address := none }
    (by decide)

/-! ## C5: `IOError` while hashing aborts the whole run -/

/-- If any scanned file is unreadable, building the records raises
`IOError`. -/
theorem buildRecords_error_of_none (sep : Char) (url : String) :
    ∀ xs comps, (comps, (none : Option (List Nat))) ∈ xs →
      buildRecords sep url xs = .error .ioError := by
  intro xs
  induction xs with
  | nil => simp
  | cons p rest ih =>
    intro comps hmem
    obtain ⟨c1, c2⟩ := p
    rcases List.mem_cons.mp hmem with h | h
    · cases h
      simp [buildRecords]
    · cases c2 with
      | none => simp [buildRecords]
      | some c => simp [buildRecords, ih comps h]

/-- C5: when opening or reading one of the scanned files raises `IOError`,
nothing in `sha256_file`, `scan_files` or `generate` catches it: the scan
errors, `generate` errors, and the run ends with no manifest written. -/
theorem ioerror_propagates (tree : EList) (url : String) (comps : List String)
    (h : (comps, (none : Option (List Nat))) ∈ scanListing tree) :
    scan_files tree url = .error .ioError ∧
    ∀ cfg : Config, cfg.base_url = some url → cfg.dir.isSome = true →
      cfg.mc_version.isSome = true →
      generate cfg tree = .error .ioError ∧
      (mainRun (.parsed cfg) tree).written = none := by
  have hscan : ∀ sep, scanFilesSep sep tree url = .error .ioError :=
    fun sep => buildRecords_error_of_none sep url _ comps h
  refine ⟨hscan '/', ?_⟩
  intro cfg hb hd hv
  obtain ⟨d, hd⟩ := Option.isSome_iff_exists.mp hd
  obtain ⟨v, hv⟩ := Option.isSome_iff_exists.mp hv
  have hgen : generate cfg tree = .error .ioError := by
    simp [generate, getRequired, hb, hd, hv, scan_files, hscan '/']
  refine ⟨hgen, ?_⟩
  have hfm : firstMissing cfg = none := by
    simp [firstMissing, requiredKeys, hasKey, List.find?, hb, hd, hv]
  simp [mainRun, hfm, hgen, RunResult.written]

/-- Witness for C5: a tree whose only file is unreadable. -/
theorem ioerror_propagates_witness :
    scan_files (.cons (.dir "mods" (.cons (.file "broken" none) .nil)) .nil) "http://u"
      = .error .ioError ∧
    generate ⟨some "p", some "http://u", some "1", none, none, none, none⟩
      (.cons (.dir "mods" (.cons (.file "broken" none) .nil)) .nil) = .error .ioError ∧
    (mainRun (.parsed ⟨some "p", some "http://u", some "1", none, none, none, none⟩)
      (.cons (.dir "mods" (.cons (.file "broken" none) .nil)) .nil)).written = none := by
  have h := ioerror_propagates (.cons (.dir "mods" (.cons (.file "broken" none) .nil)) .nil)
    "http://u" ["mods", "broken"] (by decide)
  have h2 := h.2 ⟨some "p", some "http://u", some "1", none, none, none, none⟩ rfl rfl rfl
  exact ⟨h.1, h2.1, h2.2⟩

/-! ## C6: absent scan directories are skipped -/

/-- C6: a scan directory that does not exist under the base directory
contributes nothing (and no error) to the scan, and when none of the four
exists the scan returns the empty sequence and `generate` still produces a
manifest whose `files` field is the empty list. -/
theorem absent_scan_dirs (base : EList) (url : String) :
    (∀ d, findDir d base = none → scanOne base d = []) ∧
    ((∀ d ∈ SCAN_DIRS, findDir d base = none) →
      scan_files base url = .ok [] ∧
      ∀ cfg : Config, cfg.base_url = some url → cfg.dir.isSome = true →
        cfg.mc_version.isSome = true →
        ∃ m, generate cfg base = .ok m ∧ m.files = []) := by
  constructor
  · intro d h
    simp [scanOne, h]
  · intro h
    have h1 := h "mods" (by decide)
    have h2 := h "resourcepacks" (by decide)
    have h3 := h "shaderpacks" (by decide)
    have h4 := h "config" (by decide)
    have hlist : scanListing base = [] := by
      simp [scanListing, SCAN_DIRS, scanOne, h1, h2, h3, h4]
    have hscan : scan_files base url = .ok [] := by
      simp [scan_files, scanFilesSep, hlist, buildRecords]
    refine ⟨hscan, ?_⟩
    intro cfg hb hd hv
    obtain ⟨d, hd⟩ := Option.isSome_iff_exists.mp hd
    obtain ⟨v, hv⟩ := Option.isSome_iff_exists.mp hv
    simp [generate, getRequired, hb, hd, hv, hscan]

/-- Witness for C6: the empty base directory. -/
theorem absent_scan_dirs_witness :
    scanOne .nil "mods" = [] ∧
    scan_files .nil "http://u" = .ok [] ∧
    ∃ m, generate ⟨some "p", some "http://u", some "1", none, none, none, none⟩ .nil = .ok m ∧
      m.files = [] := by
  have h := absent_scan_dirs .nil "http://u"
  have h2 := h.2 (fun d _ => rfl)
  exact ⟨h.1 "mods" rfl, h2.1,
    h2.2 ⟨some "p", some "http://u", some "1", none, none, none, none⟩ rfl rfl rfl⟩

/-! ## C7: defaults of the optional configuration keys -/

/-- C7: when an optional key is absent `generate` uses its documented
default (`loader_type` `"vanilla"`, `loader_version` `""`, `java_args`
`"-Xmx4G -Xms2G"`), and the manifest's server address is `None` both when
the key is absent and when it is the empty string. -/
theorem optional_defaults (cfg : Config) (tree : EList) (m : Manifest)
    (hok : generate cfg tree = .ok m) :
    (cfg.loader_type = none → m.mod_loader.type = "vanilla") ∧
    (cfg.loader_version = none → m.mod_loader.version = "") ∧
    (cfg.java_args = none → m.java_args = "-Xmx4G -Xms2G") ∧
    ((cfg.server_address = none ∨ cfg.server_address = some "") →
      m.server_address = none) := by
  obtain ⟨d, b, v, lt, lv, ja, sa⟩ := cfg
  cases d <;> cases b <;> cases v <;> simp [generate, getRequired] at hok
  cases hscan : scan_files tree _ with
  | error e => rw [hscan] at hok; simp at hok
  | ok files =>
    rw [hscan] at hok
    simp only [Except.ok.injEq] at hok
    subst hok
    refine ⟨?_, ?_, ?_, ?_⟩ <;> intro h
    · subst h; rfl
    · subst h; rfl
    · subst h; rfl
    · rcases h with h | h <;> subst h <;> simp

/-- Witness for C7 at a concrete configuration and the empty tree. -/
theorem optional_defaults_witness :
    ({ mc_version := "1", mod_loader := ⟨"vanilla", ""⟩, files := []
     , java_args := "-Xmx4G -Xms2G", server_address := none } : Manifest).mod_loader.type
        = "vanilla" ∧
    ({ mc_version := "1", mod_loader := ⟨"vanilla", ""⟩, files := []
     , java_args := "-Xmx4G -Xms2G", server_address := none } : Manifest).mod_loader.version
        = "" ∧
    ({ mc_version := "1", mod_loader := ⟨"vanilla", ""⟩, files := []
     , java_args := "-Xmx4G -Xms2G", server_address := none } : Manifest).java_args
        = "-Xmx4G -Xms2G" ∧
    ({ mc_version := "1", mod_loader := ⟨"vanilla", ""⟩, files := []
     , java_args := "-Xmx4G -Xms2G", server_address := none } : Manifest).server_address
        = none := by
  have h := optional_defaults ⟨some "p", some "u", some "1", none, none, none, some ""⟩ .nil
    { mc_version := "1", mod_loader := ⟨"vanilla", ""⟩, files := []
    , java_args := "-Xmx4G -Xms2G", server_address := none } (by decide)
  exact ⟨h.1 rfl, h.2.1 rfl, h.2.2.1 rfl, h.2.2.2 (Or.inr rfl)⟩

/-! ## Walk unfolding and membership lemmas -/

/-- Walking past a file yields that file and the rest. -/
theorem walkL_cons_file (n : String) (c : Option (List Nat)) (r : EList) :
    walkL (.cons (.file n c) r) = ([n], c) :: walkL r := by
  simp [walkL, filesOfL, dirsOfL]

/-- Walking past a directory yields the remaining files first, then the
directory's own walk prefixed with its name, then the remaining
directories. -/
theorem walkL_cons_dir (n : String) (sub r : EList) :
    walkL (.cons (.dir n sub) r) =
      filesOfL r ++ ((walkL sub).map (fun pc => (n :: pc.1, pc.2)) ++ dirsOfL r) := by
  simp [walkL, filesOfL, dirsOfL]

/-- Membership in a walk splits into the files part and the directories
part. -/
theorem mem_walkL {x : List String × Option (List Nat)} {es : EList} :
    x ∈ walkL es ↔ x ∈ filesOfL es ∨ x ∈ dirsOfL es := by
  simp [walkL]

/-! ## Good names along the walk -/

/-- Every path component that a walk of a good-named tree produces is a good
name, and no produced path is empty. -/
theorem walkL_good : ∀ es, goodNamesL es = true →
    ∀ pc ∈ walkL es, pc.1 ≠ [] ∧ ∀ s ∈ pc.1, goodName s = true := by
  refine elistInduction _ ?_ ?_ ?_
  · intro _ pc hpc
    simp [walkL, filesOfL, dirsOfL] at hpc
  · intro n c r ih hg pc hpc
    simp only [goodNamesL, Bool.and_eq_true] at hg
    rw [walkL_cons_file, List.mem_cons] at hpc
    rcases hpc with h | h
    · subst h
      exact ⟨by simp, by simpa using hg.1⟩
    · exact ih hg.2 pc h
  · intro n sub r ihsub ihr hg pc hpc
    simp only [goodNamesL, Bool.and_eq_true] at hg
    rw [walkL_cons_dir] at hpc
    simp only [List.mem_append, List.mem_map] at hpc
    rcases hpc with h | h | h
    · exact ihr hg.2 pc (mem_walkL.mpr (Or.inl h))
    · obtain ⟨q, hq, rfl⟩ := h
      have hgood := ihsub hg.1.2 q hq
      refine ⟨by simp, ?_⟩
      intro s hs
      rcases List.mem_cons.mp hs with h | h
      · subst h; exact hg.1.1
      · exact hgood.2 s h
    · exact ihr hg.2 pc (mem_walkL.mpr (Or.inr h))

/-- A subdirectory found in a good-named tree is itself good-named. -/
theorem findDir_good : ∀ es, goodNamesL es = true →
    ∀ d sub, findDir d es = some sub → goodNamesL sub = true := by
  refine elistInduction _ ?_ ?_ ?_
  · intro _ d sub h
    simp [findDir] at h
  · intro n c r ih hg d sub h
    simp only [goodNamesL, Bool.and_eq_true] at hg
    exact ih hg.2 d sub h
  · intro n s r ihs ihr hg d sub h
    simp only [goodNamesL, Bool.and_eq_true] at hg
    simp only [findDir] at h
    by_cases hn : n = d
    · rw [if_pos hn] at h
      cases h
      exact hg.1.2
    · rw [if_neg hn] at h
      exact ihr hg.2 d sub h

/-- Every path in the scan listing of a good-named tree is a nonempty list
of good names. -/
theorem scanListing_good (base : EList) (h : goodNamesL base = true) :
    ∀ pc ∈ scanListing base, pc.1 ≠ [] ∧ ∀ s ∈ pc.1, goodName s = true := by
  intro pc hpc
  simp only [scanListing, List.mem_flatMap] at hpc
  obtain ⟨d, hd, hmem⟩ := hpc
  simp only [scanOne] at hmem
  cases hf : findDir d base with
  | none => rw [hf] at hmem; simp at hmem
  | some sub =>
    rw [hf] at hmem
    simp only [List.mem_map] at hmem
    obtain ⟨q, hq, rfl⟩ := hmem
    have hgsub := findDir_good base h d sub hf
    have hgq := walkL_good sub hgsub q hq
    have hgd : goodName d = true := by
      have hd4 : d = "mods" ∨ d = "resourcepacks" ∨ d = "shaderpacks" ∨ d = "config" := by
        simpa [SCAN_DIRS] using hd
      rcases hd4 with h | h | h | h <;> subst h <;> decide
    refine ⟨by simp, ?_⟩
    intro s hs
    rcases List.mem_cons.mp hs with h | h
    · subst h; exact hgd
    · exact hgq.2 s h

/-! ## C2: URL construction and forward-slash paths -/

/-- The records of a successful scan are exactly the listing, mapped through
`mkFileRec`. -/
theorem buildRecords_ok (sep : Char) (url : String) :
    ∀ xs rs, buildRecords sep url xs = .ok rs →
      rs = xs.map (fun pc => mkFileRec sep url pc.1 (pc.2.getD [])) := by
  intro xs
  induction xs with
  | nil =>
    intro rs h
    simp only [buildRecords] at h
    cases h
    rfl
  | cons p rest ih =>
    intro rs h
    obtain ⟨c1, c2⟩ := p
    cases c2 with
    | none => simp [buildRecords] at h
    | some c =>
      simp only [buildRecords] at h
      cases hb : buildRecords sep url rest with
      | error e => rw [hb] at h; simp at h
      | ok rs2 =>
        rw [hb] at h
        simp only [Except.ok.injEq] at h
        subst h
        simp [ih rs2 hb]

/-- Each record of a successful scan arises from one listing element. -/
theorem mem_buildRecords (sep : Char) (url : String)
    (xs : List (List String × Option (List Nat))) (rs : List FileRec)
    (h : buildRecords sep url xs = .ok rs) (r : FileRec) (hr : r ∈ rs) :
    ∃ pc ∈ xs, r = mkFileRec sep url pc.1 (pc.2.getD []) := by
  rw [buildRecords_ok sep url xs rs h] at hr
  obtain ⟨pc, hpc, hmk⟩ := List.mem_map.mp hr
  exact ⟨pc, hpc, hmk.symm⟩

/-- A character of a good name is neither a slash nor a backslash. -/
theorem goodName_char {s : String} (h : goodName s = true) {c : Char} (hc : c ∈ s.data) :
    c ≠ '/' ∧ c ≠ '\\' := by
  simp only [goodName, Bool.and_eq_true, List.all_eq_true] at h
  have h2 := h.2 c hc
  simp at h2
  exact h2

/-- The backslash replacement fixes the characters of a good name. -/
theorem map_bsToSlash_id (s : String) (h : goodName s = true) :
    s.data.map bsToSlash = s.data := by
  have hall : ∀ c ∈ s.data, bsToSlash c = c := by
    intro c hc
    simp [bsToSlash, (goodName_char h hc).2]
  calc s.data.map bsToSlash = s.data.map id := List.map_congr_left hall
  _ = s.data := List.map_id _

/-- Replacing backslashes in a join whose separator maps to the slash, over
backslash-free components, yields the slash join. -/
theorem map_bsToSlash_join (sep : Char) (hsep : bsToSlash sep = '/') :
    ∀ comps, (∀ s ∈ comps, goodName s = true) →
      (joinSepChars sep comps).map bsToSlash = joinSepChars '/' comps := by
  intro comps
  induction comps with
  | nil => intro _; rfl
  | cons s rest ih =>
    intro hg
    cases rest with
    | nil =>
      simp only [joinSepChars]
      exact map_bsToSlash_id s (hg s (List.mem_singleton.mpr rfl))
    | cons s2 r2 =>
      have hs := hg s (List.mem_cons_self _ _)
      have hrest := ih (fun x hx => hg x (List.mem_cons_of_mem _ hx))
      simp only [joinSepChars, List.map_append, List.map_cons, hsep, hrest,
        map_bsToSlash_id s hs]

/-- On a backslash-separator platform, `rel_path` of good components equals
the forward-slash join. -/
theorem relPath_backslash (comps : List String) (h : ∀ s ∈ comps, goodName s = true) :
    relPath '\\' comps = joinSep '/' comps := by
  simp only [relPath, replaceBS, joinSep]
  exact congrArg String.mk (map_bsToSlash_join '\\' (by decide) comps h)

/-- On the forward-slash platform, `rel_path` of good components equals the
forward-slash join. -/
theorem relPath_slash (comps : List String) (h : ∀ s ∈ comps, goodName s = true) :
    relPath '/' comps = joinSep '/' comps := by
  simp only [relPath, replaceBS, joinSep]
  exact congrArg String.mk (map_bsToSlash_join '/' (by decide) comps h)

/-- Scanning is separator-independent on listings whose `rel_path`s agree. -/
theorem buildRecords_sep_congr (url : String) :
    ∀ xs, (∀ pc ∈ xs, relPath '\\' pc.1 = relPath '/' pc.1) →
      buildRecords '\\' url xs = buildRecords '/' url xs := by
  intro xs
  induction xs with
  | nil => intro _; rfl
  | cons p rest ih =>
    intro h
    obtain ⟨c1, c2⟩ := p
    cases c2 with
    | none => rfl
    | some c =>
      have hrel := h (c1, some c) (List.mem_cons_self _ _)
      have hrest := ih (fun pc hpc => h pc (List.mem_cons_of_mem _ hpc))
      simp only [buildRecords, hrest, mkFileRec, hrel]

/-- No character of a slash-join of good components is a backslash. -/
theorem joinSepChars_no_backslash :
    ∀ comps, (∀ s ∈ comps, goodName s = true) →
      ∀ c ∈ joinSepChars '/' comps, c ≠ '\\' := by
  intro comps
  induction comps with
  | nil => intro _ c hc; simp [joinSepChars] at hc
  | cons s rest ih =>
    intro hg c hc
    have hs := hg s (List.mem_cons_self _ _)
    cases rest with
    | nil =>
      simp only [joinSepChars] at hc
      exact (goodName_char hs hc).2
    | cons s2 r2 =>
      simp only [joinSepChars, List.mem_append, List.mem_cons] at hc
      rcases hc with hc | hc | hc
      · exact (goodName_char hs hc).2
      · subst hc; decide
      · exact ih (fun x hx => hg x (List.mem_cons_of_mem _ hx)) c hc

/-- C2: every record's `url` is the base URL with trailing slashes removed,
one forward slash, and the record's `path`; and on a well-formed tree the
path field is the same whether the host joins paths with forward slashes or
with backslashes (which the source replaces), and contains no backslash. -/
theorem url_and_forward_slashes (base : EList) (url : String) :
    (∀ sep rs, scanFilesSep sep base url = .ok rs →
      ∀ r ∈ rs, r.url = rstripSlashes url ++ "/" ++ r.path) ∧
    (goodNamesL base = true → scanFilesSep '\\' base url = scanFilesSep '/' base url) ∧
    (goodNamesL base = true → ∀ rs, scan_files base url = .ok rs →
      ∀ r ∈ rs, ∀ c ∈ r.path.data, c ≠ '\\') := by
  refine ⟨?_, ?_, ?_⟩
  · intro sep rs hok r hr
    obtain ⟨pc, _, rfl⟩ := mem_buildRecords sep url _ rs hok r hr
    rfl
  · intro hg
    exact buildRecords_sep_congr url _
      (fun pc hpc => by
        rw [relPath_backslash pc.1 (scanListing_good base hg pc hpc).2,
          relPath_slash pc.1 (scanListing_good base hg pc hpc).2])
  · intro hg rs hok r hr
    obtain ⟨pc, hpc, rfl⟩ := mem_buildRecords '/' url _ rs hok r hr
    have hgood := (scanListing_good base hg pc hpc).2
    intro c hc
    refine joinSepChars_no_backslash pc.1 hgood c ?_
    have hpath : (mkFileRec '/' url pc.1 (pc.2.getD [])).path = joinSep '/' pc.1 := by
      simp [mkFileRec, relPath_slash pc.1 hgood]
    rw [hpath] at hc
    exact hc

/-- Witness for C2 on a one-file tree and a base URL with a trailing
slash. -/
theorem url_and_forward_slashes_witness :
    ({ path := "mods/a"
     , sha256 := "e3b0c44298fc1c149afbf4c8996fb92427ae41e4649b934ca495991b7852b855"
     , url := "http://u/mods/a", size := 0, required := true } : FileRec).url
        = rstripSlashes "http://u/" ++ "/" ++
          ({ path := "mods/a"
           , sha256 := "e3b0c44298fc1c149afbf4c8996fb92427ae41e4649b934ca495991b7852b855"
           , url := "http://u/mods/a", size := 0, required := true } : FileRec).path ∧
    scanFilesSep '\\' (.cons (.dir "mods" (.cons (.file "a" (some [])) .nil)) .nil) "http://u/"
      = scanFilesSep '/' (.cons (.dir "mods" (.cons (.file "a" (some [])) .nil)) .nil)
          "http://u/" ∧
    'm' ≠ '\\' := by
  have h := url_and_forward_slashes
    (.cons (.dir "mods" (.cons (.file "a" (some [])) .nil)) .nil) "http://u/"
  refine ⟨?_, h.2.1 (by decide), ?_⟩
  · exact h.1 '/'
      [{ path := "mods/a"
       , sha256 := "e3b0c44298fc1c149afbf4c8996fb92427ae41e4649b934ca495991b7852b855"
       , url := "http://u/mods/a", size := 0, required := true }] (by decide) _ (by decide)
  · exact h.2.2 (by decide)
      [{ path := "mods/a"
       , sha256 := "e3b0c44298fc1c149afbf4c8996fb92427ae41e4649b934ca495991b7852b855"
       , url := "http://u/mods/a", size := 0, required := true }] (by decide)
      { path := "mods/a"
      , sha256 := "e3b0c44298fc1c149afbf4c8996fb92427ae41e4649b934ca495991b7852b855"
      , url := "http://u/mods/a", size := 0, required := true } (by decide) 'm' (by decide)

/-! ## C8: determinism up to directory-listing order -/

/-- Rotating the middle of an append is a permutation. -/
theorem perm_rotate {α : Type} (A W B : List α) :
    List.Perm (A ++ (W ++ B)) (W ++ (A ++ B)) := by
  have h : List.Perm ((A ++ W) ++ B) ((W ++ A) ++ B) :=
    (List.perm_append_comm).append_right B
  simpa [List.append_assoc] using h

/-- Listing-equivalent trees have permuted walks. -/
theorem walkL_perm {t1 t2 : EList} (h : LEquiv t1 t2) :
    List.Perm (walkL t1) (walkL t2) := by
  induction h with
  | nil => exact List.Perm.refl _
  | consFile n c r1 r2 hr ih =>
    rw [walkL_cons_file, walkL_cons_file]
    exact ih.cons _
  | consDir n s1 s2 r1 r2 hs hr ihs ihr =>
    rw [walkL_cons_dir, walkL_cons_dir]
    have hW : List.Perm ((walkL s1).map (fun pc => (n :: pc.1, pc.2)))
        ((walkL s2).map (fun pc => (n :: pc.1, pc.2))) := ihs.map _
    refine (perm_rotate _ _ _).trans (List.Perm.trans ?_ (perm_rotate _ _ _).symm)
    exact hW.append ihr
  | swap a b r =>
    cases a with
    | file n1 c1 =>
      cases b with
      | file n2 c2 =>
        rw [walkL_cons_file, walkL_cons_file, walkL_cons_file, walkL_cons_file]
        exact List.Perm.swap _ _ _
      | dir n2 s2 =>
        rw [walkL_cons_file, walkL_cons_dir, walkL_cons_dir]
        simp [filesOfL, dirsOfL, walkL]
    | dir n1 s1 =>
      cases b with
      | file n2 c2 =>
        rw [walkL_cons_dir, walkL_cons_file, walkL_cons_dir]
        simp [filesOfL, dirsOfL, walkL]
      | dir n2 s2 =>
        rw [walkL_cons_dir, walkL_cons_dir]
        simp only [filesOfL, dirsOfL, walkL]
        refine List.Perm.append_left _ ?_
        exact perm_rotate _ _ _
  | trans l1 l2 l3 h1 h2 ih1 ih2 => exact ih1.trans ih2

/-- Listing-equivalent trees have permuted name lists. -/
theorem namesL_perm {t1 t2 : EList} (h : LEquiv t1 t2) :
    List.Perm (namesL t1) (namesL t2) := by
  induction h with
  | nil => exact List.Perm.refl _
  | consFile n c r1 r2 hr ih => simpa [namesL, Entry.name] using ih.cons n
  | consDir n s1 s2 r1 r2 hs hr ihs ihr => simpa [namesL, Entry.name] using ihr.cons n
  | swap a b r => simpa [namesL] using List.Perm.swap b.name a.name (namesL r)
  | trans l1 l2 l3 h1 h2 ih1 ih2 => exact ih1.trans ih2

/-- `all` is invariant under permutation. -/
theorem all_eq_of_perm {α : Type} {l1 l2 : List α} (h : List.Perm l1 l2) (p : α → Bool) :
    l1.all p = l2.all p := by
  apply Bool.eq_iff_iff.mpr
  simp only [List.all_eq_true]
  exact ⟨fun hx x hm => hx x (h.mem_iff.mpr hm), fun hx x hm => hx x (h.mem_iff.mp hm)⟩

/-- Inequality of names, in its decidable form, is symmetric. -/
theorem bneSymm {a b : String} (h : (!decide (a = b)) = true) : (!decide (b = a)) = true := by
  simp only [Bool.not_eq_true', decide_eq_false_iff_not] at h ⊢
  exact fun hc => h hc.symm

/-- Listing equivalence preserves sibling-name distinctness. -/
theorem nodupL_of_LEquiv {t1 t2 : EList} (h : LEquiv t1 t2) (hn : nodupL t1 = true) :
    nodupL t2 = true := by
  induction h with
  | nil => exact hn
  | consFile n c r1 r2 hr ih =>
    simp only [nodupL, Bool.and_eq_true] at hn ⊢
    exact ⟨by rw [← all_eq_of_perm (namesL_perm hr)]; exact hn.1, ih hn.2⟩
  | consDir n s1 s2 r1 r2 hs hr ihs ihr =>
    simp only [nodupL, Bool.and_eq_true] at hn ⊢
    exact ⟨⟨by rw [← all_eq_of_perm (namesL_perm hr)]; exact hn.1.1, ihs hn.1.2⟩, ihr hn.2⟩
  | swap a b r =>
    cases a with
    | file n1 c1 =>
      cases b with
      | file n2 c2 =>
        simp only [nodupL, namesL, Entry.name, List.all_cons, Bool.and_eq_true] at hn ⊢
        obtain ⟨⟨hab, har⟩, hbr, hr⟩ := hn
        exact ⟨⟨bneSymm hab, hbr⟩, har, hr⟩
      | dir n2 s2 =>
        simp only [nodupL, namesL, Entry.name, List.all_cons, Bool.and_eq_true] at hn ⊢
        obtain ⟨⟨hab, har⟩, ⟨hbr, hs2⟩, hr⟩ := hn
        exact ⟨⟨⟨bneSymm hab, hbr⟩, hs2⟩, har, hr⟩
    | dir n1 s1 =>
      cases b with
      | file n2 c2 =>
        simp only [nodupL, namesL, Entry.name, List.all_cons, Bool.and_eq_true] at hn ⊢
        obtain ⟨⟨⟨hab, har⟩, hs1⟩, hbr, hr⟩ := hn
        exact ⟨⟨bneSymm hab, hbr⟩, ⟨har, hs1⟩, hr⟩
      | dir n2 s2 =>
        simp only [nodupL, namesL, Entry.name, List.all_cons, Bool.and_eq_true] at hn ⊢
        obtain ⟨⟨⟨hab, har⟩, hs1⟩, ⟨hbr, hs2⟩, hr⟩ := hn
        exact ⟨⟨⟨bneSymm hab, hbr⟩, hs2⟩, ⟨har, hs1⟩, hr⟩
  | trans l1 l2 l3 h1 h2 ih1 ih2 => exact ih2 (ih1 hn)

/-- On trees with distinct sibling names, listing equivalence preserves the
lookup of a scan directory, up to listing equivalence of its contents. -/
theorem findDir_of_LEquiv {t1 t2 : EList} (h : LEquiv t1 t2) (hn : nodupL t1 = true)
    (d : String) :
    (findDir d t1 = none ∧ findDir d t2 = none) ∨
    (∃ s1 s2, findDir d t1 = some s1 ∧ findDir d t2 = some s2 ∧ LEquiv s1 s2) := by
  induction h with
  | nil => exact Or.inl ⟨rfl, rfl⟩
  | consFile n c r1 r2 hr ih =>
    simp only [nodupL, Bool.and_eq_true] at hn
    simp only [findDir]
    exact ih hn.2
  | consDir n s1 s2 r1 r2 hs hr ihs ihr =>
    simp only [nodupL, Bool.and_eq_true] at hn
    simp only [findDir]
    by_cases hnd : n = d
    · rw [if_pos hnd, if_pos hnd]
      exact Or.inr ⟨s1, s2, rfl, rfl, hs⟩
    · rw [if_neg hnd, if_neg hnd]
      exact ihr hn.2
  | swap a b r =>
    have htail : (findDir d r = none ∧ findDir d r = none) ∨
        (∃ s1 s2, findDir d r = some s1 ∧ findDir d r = some s2 ∧ LEquiv s1 s2) := by
      cases hf : findDir d r with
      | none => exact Or.inl ⟨rfl, rfl⟩
      | some s => exact Or.inr ⟨s, s, rfl, rfl, LEquiv.refl s⟩
    cases a with
    | file n1 c1 =>
      cases b with
      | file n2 c2 => simpa [findDir] using htail
      | dir n2 s2 =>
        simp only [findDir]
        by_cases hnd : n2 = d
        · rw [if_pos hnd]
          exact Or.inr ⟨s2, s2, rfl, rfl, LEquiv.refl s2⟩
        · rw [if_neg hnd]
          exact htail
    | dir n1 s1 =>
      cases b with
      | file n2 c2 =>
        simp only [findDir]
        by_cases hnd : n1 = d
        · rw [if_pos hnd]
          exact Or.inr ⟨s1, s1, rfl, rfl, LEquiv.refl s1⟩
        · rw [if_neg hnd]
          exact htail
      | dir n2 s2 =>
        simp only [nodupL, namesL, Entry.name, List.all_cons, Bool.and_eq_true] at hn
        obtain ⟨⟨⟨hab, har⟩, hs1n⟩, ⟨hbr, hs2n⟩, hr⟩ := hn
        have hne : n2 ≠ n1 := by
          simpa [Bool.not_eq_true', decide_eq_false_iff_not] using hab
        simp only [findDir]
        by_cases h1 : n1 = d
        · have h2 : ¬ (n2 = d) := fun hc => hne (hc.trans h1.symm)
          rw [if_pos h1, if_neg h2, if_pos h1]
          exact Or.inr ⟨s1, s1, rfl, rfl, LEquiv.refl s1⟩
        · rw [if_neg h1]
          by_cases h2 : n2 = d
          · rw [if_pos h2, if_pos h2]
            exact Or.inr ⟨s2, s2, rfl, rfl, LEquiv.refl s2⟩
          · rw [if_neg h2, if_neg h2, if_neg h1]
            exact htail
  | trans l1 l2 l3 h1 h2 ih1 ih2 =>
    have hn2 := nodupL_of_LEquiv h1 hn
    rcases ih1 hn with ⟨ha1, ha2⟩ | ⟨s1, s2, ha1, ha2, ha3⟩ <;>
      rcases ih2 hn2 with ⟨hb1, hb2⟩ | ⟨u1, u2, hb1, hb2, hb3⟩
    · exact Or.inl ⟨ha1, hb2⟩
    · rw [ha2] at hb1
      simp at hb1
    · rw [hb1] at ha2
      simp at ha2
    · rw [ha2] at hb1
      injection hb1 with hh
      subst hh
      exact Or.inr ⟨s1, u2, ha1, hb2, LEquiv.trans _ _ _ ha3 hb3⟩

/-- Listing-equivalent trees have permuted scan listings. -/
theorem scanListing_perm {t1 t2 : EList} (h : LEquiv t1 t2) (hn : nodupL t1 = true) :
    List.Perm (scanListing t1) (scanListing t2) := by
  have hone : ∀ d, List.Perm (scanOne t1 d) (scanOne t2 d) := by
    intro d
    rcases findDir_of_LEquiv h hn d with ⟨h1, h2⟩ | ⟨s1, s2, h1, h2, hs⟩
    · simp [scanOne, h1, h2]
    · simp only [scanOne, h1, h2]
      exact (walkL_perm hs).map _
  simp only [scanListing, SCAN_DIRS, List.flatMap_cons, List.flatMap_nil, List.append_nil]
  exact ((hone "mods").append ((hone "resourcepacks").append
    ((hone "shaderpacks").append (hone "config"))))

/-- When every scanned file is readable, the scan succeeds with the mapped
records. -/
theorem buildRecords_ok_of_no_none (sep : Char) (url : String) :
    ∀ xs, (∀ pc ∈ xs, pc.2 ≠ none) →
      buildRecords sep url xs = .ok (xs.map (fun pc => mkFileRec sep url pc.1 (pc.2.getD []))) := by
  intro xs
  induction xs with
  | nil => intro _; rfl
  | cons p rest ih =>
    intro h
    obtain ⟨c1, c2⟩ := p
    cases c2 with
    | none => exact absurd rfl (h (c1, none) (List.mem_cons_self _ _))
    | some c =>
      simp only [buildRecords, ih (fun pc hpc => h pc (List.mem_cons_of_mem _ hpc))]
      simp

/-- Listing-equivalent trees scan to the same error, or to permuted record
sequences. -/
theorem scan_files_of_LEquiv {t1 t2 : EList} (h : LEquiv t1 t2) (hn : nodupL t1 = true)
    (url : String) :
    (scan_files t1 url = .error .ioError ∧ scan_files t2 url = .error .ioError) ∨
    (∃ rs1 rs2, scan_files t1 url = .ok rs1 ∧ scan_files t2 url = .ok rs2 ∧
      List.Perm rs1 rs2) := by
  have hperm := scanListing_perm h hn
  by_cases hex : ∃ pc ∈ scanListing t1, pc.2 = (none : Option (List Nat))
  · obtain ⟨pc, hpc, hnone⟩ := hex
    obtain ⟨comps, c2⟩ := pc
    subst hnone
    left
    exact ⟨buildRecords_error_of_none '/' url _ comps hpc,
      buildRecords_error_of_none '/' url _ comps (hperm.mem_iff.mp hpc)⟩
  · push_neg at hex
    right
    have hex2 : ∀ pc ∈ scanListing t2, pc.2 ≠ none := fun pc hpc =>
      hex pc (hperm.mem_iff.mpr hpc)
    exact ⟨_, _, buildRecords_ok_of_no_none '/' url _ hex,
      buildRecords_ok_of_no_none '/' url _ hex2, hperm.map _⟩

/-- C8: with a fixed configuration and the same unchanged directory tree,
two runs of the generator behave identically up to the OS listing order:
they fail the same way, or produce manifests equal in every field except
that the file-record sequences are permutations of each other.  The listing
order is the only input the program leaves to the environment, so it
introduces no other nondeterminism into the output. -/
theorem generate_deterministic_up_to_order (cfg : Config) {t1 t2 : EList}
    (hn : nodupL t1 = true) (he : LEquiv t1 t2) :
    (∀ e, generate cfg t1 = .error e ↔ generate cfg t2 = .error e) ∧
    (∀ m1 m2, generate cfg t1 = .ok m1 → generate cfg t2 = .ok m2 →
      m1.mc_version = m2.mc_version ∧ m1.mod_loader = m2.mod_loader ∧
      m1.java_args = m2.java_args ∧ m1.server_address = m2.server_address ∧
      List.Perm m1.files m2.files) := by
  obtain ⟨d, b, v, lt, lv, ja, sa⟩ := cfg
  cases d with
  | none =>
    exact ⟨fun e => by simp [generate, getRequired],
      fun m1 m2 h1 h2 => by simp [generate, getRequired] at h1⟩
  | some dv =>
  cases b with
  | none =>
    exact ⟨fun e => by simp [generate, getRequired],
      fun m1 m2 h1 h2 => by simp [generate, getRequired] at h1⟩
  | some bv =>
  cases v with
  | none =>
    exact ⟨fun e => by simp [generate, getRequired],
      fun m1 m2 h1 h2 => by simp [generate, getRequired] at h1⟩
  | some vv =>
  rcases scan_files_of_LEquiv he hn bv with ⟨hs1, hs2⟩ | ⟨rs1, rs2, hs1, hs2, hp⟩
  · constructor
    · intro e
      simp [generate, getRequired, hs1, hs2]
    · intro m1 m2 h1 h2
      simp [generate, getRequired, hs1] at h1
  · constructor
    · intro e
      simp [generate, getRequired, hs1, hs2]
    · intro m1 m2 h1 h2
      simp only [generate, getRequired, hs1, hs2, Except.ok.injEq] at h1 h2
      subst h1
      subst h2
      exact ⟨rfl, rfl, rfl, rfl, hp⟩

/-- Witness for C8: the same one-directory tree listed in two orders. -/
theorem generate_deterministic_up_to_order_witness :
    ({ mc_version := "1", mod_loader := ⟨"vanilla", ""⟩
     , files := [ { path := "mods/a"
                  , sha256 := "e3b0c44298fc1c149afbf4c8996fb92427ae41e4649b934ca495991b7852b855"
                  , url := "http://u/mods/a", size := 0, required := true }
                , { path := "mods/b"
                  , sha256 := "e3b0c44298fc1c149afbf4c8996fb92427ae41e4649b934ca495991b7852b855"
                  , url := "http://u/mods/b", size := 0, required := true } ]
     , java_args := "-Xmx4G -Xms2G", server_address := none } : Manifest).mc_version =
      ({ mc_version := "1", mod_loader := ⟨"vanilla", ""⟩
       , files := [ { path := "mods/b"
                    , sha256 := "e3b0c44298fc1c149afbf4c8996fb92427ae41e4649b934ca495991b7852b855"
                    , url := "http://u/mods/b", size := 0, required := true }
                  , { path := "mods/a"
                    , sha256 := "e3b0c44298fc1c149afbf4c8996fb92427ae41e4649b934ca495991b7852b855"
                    , url := "http://u/mods/a", size := 0, required := true } ]
       , java_args := "-Xmx4G -Xms2G", server_address := none } : Manifest).mc_version ∧
    List.Perm
      [ ({ path := "mods/a"
         , sha256 := "e3b0c44298fc1c149afbf4c8996fb92427ae41e4649b934ca495991b7852b855"
         , url := "http://u/mods/a", size := 0, required := true } : FileRec)
      , { path := "mods/b"
        , sha256 := "e3b0c44298fc1c149afbf4c8996fb92427ae41e4649b934ca495991b7852b855"
        , url := "http://u/mods/b", size := 0, required := true } ]
      [ { path := "mods/b"
        , sha256 := "e3b0c44298fc1c149afbf4c8996fb92427ae41e4649b934ca495991b7852b855"
        , url := "http://u/mods/b", size := 0, required := true }
      , { path := "mods/a"
        , sha256 := "e3b0c44298fc1c149afbf4c8996fb92427ae41e4649b934ca495991b7852b855"
        , url := "http://u/mods/a", size := 0, required := true } ] := by
  have hlequiv : LEquiv
      (.cons (.dir "mods" (.cons (.file "a" (some []))
        (.cons (.file "b" (some [])) .nil))) .nil)
      (.cons (.dir "mods" (.cons (.file "b" (some []))
        (.cons (.file "a" (some [])) .nil))) .nil) :=
    LEquiv.consDir "mods"
      (.cons (.file "a" (some [])) (.cons (.file "b" (some [])) .nil))
      (.cons (.file "b" (some [])) (.cons (.file "a" (some [])) .nil)) .nil .nil
      (LEquiv.swap (.file "a" (some [])) (.file "b" (some [])) .nil) LEquiv.nil
  have hnod : nodupL (.cons (.dir "mods" (.cons (.file "a" (some []))
      (.cons (.file "b" (some [])) .nil))) .nil) = true := by decide
  have h := generate_deterministic_up_to_order
    ⟨some "p", some "http://u", some "1", none, none, none, none⟩ hnod hlequiv
  have h2 := h.2
    { mc_version := "1", mod_loader := ⟨"vanilla", ""⟩
    , files := [ { path := "mods/a"
                 , sha256 := "e3b0c44298fc1c149afbf4c8996fb92427ae41e4649b934ca495991b7852b855"
                 , url := "http://u/mods/a", size := 0, required := true }
               , { path := "mods/b"
                 , sha256 := "e3b0c44298fc1c149afbf4c8996fb92427ae41e4649b934ca495991b7852b855"
                 , url := "http://u/mods/b", size := 0, required := true } ]
    , java_args := "-Xmx4G -Xms2G", server_address := none }
    { mc_version := "1", mod_loader := ⟨"vanilla", ""⟩
    , files := [ { path := "mods/b"
                 , sha256 := "e3b0c44298fc1c149afbf4c8996fb92427ae41e4649b934ca495991b7852b855"
                 , url := "http://u/mods/b", size := 0, required := true }
               , { path := "mods/a"
                 , sha256 := "e3b0c44298fc1c149afbf4c8996fb92427ae41e4649b934ca495991b7852b855"
                 , url := "http://u/mods/a", size := 0, required := true } ]
    , java_args := "-Xmx4G -Xms2G", server_address := none }
    (by decide) (by decide)
  exact ⟨h2.1, h2.2.2.2.2⟩

/-! ## C9: the scanned relative paths are pairwise distinct -/

/-- A walk never produces an empty component path. -/
theorem walkL_fst_ne_nil : ∀ es, ∀ p ∈ (walkL es).map Prod.fst, p ≠ [] := by
  refine elistInduction (fun es => ∀ p ∈ (walkL es).map Prod.fst, p ≠ []) ?_ ?_ ?_
  · intro p hp
    simp [walkL, filesOfL, dirsOfL] at hp
  · intro n c r ih p hp
    rw [walkL_cons_file] at hp
    simp only [List.map_cons, List.mem_cons] at hp
    rcases hp with h | h
    · subst h; simp
    · exact ih p h
  · intro n sub r ihsub ihr p hp
    rw [walkL_cons_dir] at hp
    simp only [List.map_append, List.mem_append] at hp
    rcases hp with h | h | h
    · refine ihr p ?_
      rw [walkL, List.map_append]
      exact List.mem_append.mpr (Or.inl h)
    · rw [List.map_map] at h
      obtain ⟨pc, hpc, rfl⟩ := List.mem_map.mp h
      simp
    · refine ihr p ?_
      rw [walkL, List.map_append]
      exact List.mem_append.mpr (Or.inr h)

/-- A path from the files part is a single name of the listing. -/
theorem mem_filesOfL_fst : ∀ es, ∀ p ∈ (filesOfL es).map Prod.fst,
    ∃ m, p = [m] ∧ m ∈ namesL es := by
  refine elistInduction (fun es => ∀ p ∈ (filesOfL es).map Prod.fst,
    ∃ m, p = [m] ∧ m ∈ namesL es) ?_ ?_ ?_
  · intro p hp
    simp [filesOfL] at hp
  · intro n c r ih p hp
    simp only [filesOfL, List.map_cons, List.mem_cons] at hp
    rcases hp with h | h
    · exact ⟨n, h, by simp [namesL, Entry.name]⟩
    · obtain ⟨m, hm, hmem⟩ := ih p h
      exact ⟨m, hm, by simp [namesL, Entry.name, hmem]⟩
  · intro n sub r ihsub ihr p hp
    simp only [filesOfL] at hp
    obtain ⟨m, hm, hmem⟩ := ihr p hp
    exact ⟨m, hm, by simp [namesL, Entry.name, hmem]⟩

/-- A path from the directories part is a name of the listing followed by a
nonempty path. -/
theorem mem_dirsOfL_fst : ∀ es, ∀ p ∈ (dirsOfL es).map Prod.fst,
    ∃ m q, p = m :: q ∧ q ≠ [] ∧ m ∈ namesL es := by
  refine elistInduction (fun es => ∀ p ∈ (dirsOfL es).map Prod.fst,
    ∃ m q, p = m :: q ∧ q ≠ [] ∧ m ∈ namesL es) ?_ ?_ ?_
  · intro p hp
    simp [dirsOfL] at hp
  · intro n c r ih p hp
    simp only [dirsOfL] at hp
    obtain ⟨m, q, hm, hq, hmem⟩ := ih p hp
    exact ⟨m, q, hm, hq, by simp [namesL, Entry.name, hmem]⟩
  · intro n sub r ihsub ihr p hp
    have heq : dirsOfL (.cons (.dir n sub) r)
        = (walkL sub).map (fun pc => (n :: pc.1, pc.2)) ++ dirsOfL r := rfl
    rw [heq, List.map_append, List.mem_append] at hp
    rcases hp with h | h
    · rw [List.map_map] at h
      obtain ⟨pc, hpc, rfl⟩ := List.mem_map.mp h
      refine ⟨n, pc.1, rfl, ?_, by simp [namesL, Entry.name]⟩
      exact walkL_fst_ne_nil sub pc.1 (List.mem_map.mpr ⟨pc, hpc, rfl⟩)
    · obtain ⟨m, q, hm, hq, hmem⟩ := ihr p h
      exact ⟨m, q, hm, hq, by simp [namesL, Entry.name, hmem]⟩

/-- Under distinct sibling names, both the walk and its directories part
produce pairwise-distinct component paths. -/
theorem walk_dirs_fst_nodup : ∀ es, nodupL es = true →
    ((walkL es).map Prod.fst).Nodup ∧ ((dirsOfL es).map Prod.fst).Nodup := by
  refine elistInduction (fun es => nodupL es = true →
    ((walkL es).map Prod.fst).Nodup ∧ ((dirsOfL es).map Prod.fst).Nodup) ?_ ?_ ?_
  · intro _
    constructor <;> simp [walkL, filesOfL, dirsOfL]
  · intro n c r ih hn
    simp only [nodupL, Bool.and_eq_true] at hn
    obtain ⟨hall, hnr⟩ := hn
    obtain ⟨ihw, ihd⟩ := ih hnr
    have hne : ∀ m ∈ namesL r, m ≠ n := by
      intro m hm
      have := List.all_eq_true.mp hall m hm
      simpa using this
    constructor
    · rw [walkL_cons_file]
      simp only [List.map_cons]
      refine List.nodup_cons.mpr ⟨?_, ihw⟩
      intro hmem
      rw [walkL] at hmem
      simp only [List.map_append, List.mem_append] at hmem
      rcases hmem with h | h
      · obtain ⟨m, hm, hmn⟩ := mem_filesOfL_fst r [n] h
        injection hm with h1 _
        exact hne m hmn h1.symm
      · obtain ⟨m, q, hm, hq, _⟩ := mem_dirsOfL_fst r [n] h
        injection hm with _ h2
        exact hq h2.symm
    · simpa [dirsOfL] using ihd
  · intro n sub r ihsub ihr hn
    simp only [nodupL, Bool.and_eq_true] at hn
    obtain ⟨⟨hall, hnsub⟩, hnr⟩ := hn
    obtain ⟨ihw_r, ihd_r⟩ := ihr hnr
    obtain ⟨ihw_s, _⟩ := ihsub hnsub
    have hne : ∀ m ∈ namesL r, m ≠ n := by
      intro m hm
      have := List.all_eq_true.mp hall m hm
      simpa using this
    have hBeq : ((walkL sub).map (fun pc => (n :: pc.1, pc.2))).map Prod.fst
        = ((walkL sub).map Prod.fst).map (fun q => n :: q) := by
      simp [List.map_map]
    have hBnodup : (((walkL sub).map Prod.fst).map (fun q => n :: q)).Nodup :=
      ihw_s.map_on (fun x _ y _ h => by injection h)
    have hBshape : ∀ p ∈ ((walkL sub).map Prod.fst).map (fun q => n :: q),
        ∃ q, p = n :: q ∧ q ≠ [] := by
      intro p hp
      obtain ⟨q, hq, rfl⟩ := List.mem_map.mp hp
      exact ⟨q, rfl, walkL_fst_ne_nil sub q hq⟩
    have hdisjBC : List.Disjoint (((walkL sub).map Prod.fst).map (fun q => n :: q))
        ((dirsOfL r).map Prod.fst) := by
      intro p hpB hpC
      obtain ⟨q, rfl, _⟩ := hBshape p hpB
      obtain ⟨m, q', hm, _, hmem⟩ := mem_dirsOfL_fst r _ hpC
      injection hm with h1 _
      exact hne m hmem h1.symm
    have hdisjAB : List.Disjoint ((filesOfL r).map Prod.fst)
        (((walkL sub).map Prod.fst).map (fun q => n :: q)) := by
      intro p hpA hpB
      obtain ⟨m, rfl, _⟩ := mem_filesOfL_fst r p hpA
      obtain ⟨q, hq, hqne⟩ := hBshape _ hpB
      injection hq with _ h2
      exact hqne h2.symm
    have hwalk_r := ihw_r
    rw [walkL, List.map_append] at hwalk_r
    have hAnodup := (List.nodup_append.mp hwalk_r).1
    have hCnodup := (List.nodup_append.mp hwalk_r).2.1
    have hdisjAC := (List.nodup_append.mp hwalk_r).2.2
    have hdirs : ((dirsOfL (.cons (.dir n sub) r)).map Prod.fst).Nodup := by
      show ((((filesOfL sub ++ dirsOfL sub).map (fun pc => (n :: pc.1, pc.2)))
        ++ dirsOfL r).map Prod.fst).Nodup
      rw [List.map_append]
      refine List.Nodup.append ?_ hCnodup ?_
      · rw [show ((filesOfL sub ++ dirsOfL sub).map (fun pc => (n :: pc.1, pc.2))).map Prod.fst
            = ((walkL sub).map (fun pc => (n :: pc.1, pc.2))).map Prod.fst from rfl, hBeq]
        exact hBnodup
      · rw [show ((filesOfL sub ++ dirsOfL sub).map (fun pc => (n :: pc.1, pc.2))).map Prod.fst
            = ((walkL sub).map (fun pc => (n :: pc.1, pc.2))).map Prod.fst from rfl, hBeq]
        exact hdisjBC
    refine ⟨?_, hdirs⟩
    rw [walkL_cons_dir]
    simp only [List.map_append]
    refine List.Nodup.append hAnodup ?_ ?_
    · rw [show ((walkL sub).map (fun pc => (n :: pc.1, pc.2))).map Prod.fst
          = ((walkL sub).map Prod.fst).map (fun q => n :: q) from hBeq]
      exact List.Nodup.append hBnodup hCnodup hdisjBC
    · intro p hpA hpBC
      rw [List.mem_append] at hpBC
      rcases hpBC with h | h
      · rw [hBeq] at h
        exact hdisjAB hpA h
      · exact hdisjAC hpA h

/-- A subdirectory found in a tree with distinct sibling names has distinct
sibling names itself. -/
theorem findDir_nodup : ∀ es, nodupL es = true →
    ∀ d sub, findDir d es = some sub → nodupL sub = true := by
  refine elistInduction _ ?_ ?_ ?_
  · intro _ d sub h
    simp [findDir] at h
  · intro n c r ih hn d sub h
    simp only [nodupL, Bool.and_eq_true] at hn
    exact ih hn.2 d sub h
  · intro n s r ihs ihr hn d sub h
    simp only [nodupL, Bool.and_eq_true] at hn
    simp only [findDir] at h
    by_cases hnd : n = d
    · rw [if_pos hnd] at h
      cases h
      exact hn.1.2
    · rw [if_neg hnd] at h
      exact ihr hn.2 d sub h

/-- Every path contributed by one scan directory starts with its name. -/
theorem scanOne_fst_shape (base : EList) (d : String) :
    ∀ p ∈ (scanOne base d).map Prod.fst, ∃ q, p = d :: q := by
  intro p hp
  simp only [scanOne] at hp
  cases hf : findDir d base with
  | none => rw [hf] at hp; simp at hp
  | some sub =>
    rw [hf, List.map_map] at hp
    obtain ⟨pc, hpc, rfl⟩ := List.mem_map.mp hp
    exact ⟨pc.1, rfl⟩

/-- One scan directory contributes pairwise-distinct component paths. -/
theorem scanOne_fst_nodup (base : EList) (d : String) (hn : nodupL base = true) :
    ((scanOne base d).map Prod.fst).Nodup := by
  simp only [scanOne]
  cases hf : findDir d base with
  | none => simp
  | some sub =>
    rw [List.map_map]
    have hsub := findDir_nodup base hn d sub hf
    have hw := (walk_dirs_fst_nodup sub hsub).1
    have heq : ((walkL sub).map (Prod.fst ∘ fun pc => (d :: pc.1, pc.2)))
        = ((walkL sub).map Prod.fst).map (fun q => d :: q) := by
      simp [List.map_map]
    rw [heq]
    exact hw.map_on (fun x _ y _ h => by injection h)

/-- The whole scan listing has pairwise-distinct component paths. -/
theorem scanListing_fst_nodup (base : EList) (hn : nodupL base = true) :
    ((scanListing base).map Prod.fst).Nodup := by
  have hdisj : ∀ d1 d2 : String, d1 ≠ d2 →
      List.Disjoint ((scanOne base d1).map Prod.fst) ((scanOne base d2).map Prod.fst) := by
    intro d1 d2 hne p h1 h2
    obtain ⟨q1, rfl⟩ := scanOne_fst_shape base d1 p h1
    obtain ⟨q2, heq⟩ := scanOne_fst_shape base d2 _ h2
    injection heq with hh _
    exact hne hh
  have hN := scanOne_fst_nodup base
  simp only [scanListing, SCAN_DIRS, List.flatMap_cons, List.flatMap_nil, List.append_nil,
    List.map_append]
  refine List.Nodup.append (hN "mods" hn) ?_ ?_
  · refine List.Nodup.append (hN "resourcepacks" hn) ?_ ?_
    · exact List.Nodup.append (hN "shaderpacks" hn) (hN "config" hn)
        (hdisj _ _ (by decide))
    · rw [List.disjoint_append_right]
      exact ⟨hdisj _ _ (by decide), hdisj _ _ (by decide)⟩
  · rw [List.disjoint_append_right, List.disjoint_append_right]
    exact ⟨hdisj _ _ (by decide), hdisj _ _ (by decide), hdisj _ _ (by decide)⟩

/-- Splitting two equal lists at their first delimiter, when neither prefix
contains the delimiter. -/
theorem split_at_sep : ∀ (a : List Char) {b x y : List Char}, '/' ∉ a → '/' ∉ b →
    a ++ '/' :: x = b ++ '/' :: y → a = b ∧ x = y := by
  intro a
  induction a with
  | nil =>
    intro b x y ha hb h
    cases b with
    | nil =>
      simp only [List.nil_append] at h
      injection h with _ h2
      exact ⟨rfl, h2⟩
    | cons c bs =>
      simp only [List.nil_append, List.cons_append] at h
      injection h with h1 _
      rw [← h1] at hb
      exact absurd (List.mem_cons_self _ _) hb
  | cons c as ih =>
    intro b x y ha hb h
    cases b with
    | nil =>
      simp only [List.cons_append, List.nil_append] at h
      injection h with h1 _
      rw [h1] at ha
      exact absurd (List.mem_cons_self _ _) ha
    | cons cb bs =>
      simp only [List.cons_append] at h
      injection h with h1 h2
      subst h1
      have ha2 : '/' ∉ as := fun hm => ha (List.mem_cons_of_mem _ hm)
      have hb2 : '/' ∉ bs := fun hm => hb (List.mem_cons_of_mem _ hm)
      obtain ⟨hab, hxy⟩ := ih ha2 hb2 h2
      exact ⟨by rw [hab], hxy⟩

/-- A good name contains no slash. -/
theorem noSlash_of_good {s : String} (h : goodName s = true) : '/' ∉ s.data :=
  fun hm => (goodName_char h hm).1 rfl

/-- Joining nonempty lists of good names with slashes is injective. -/
theorem joinSep_inj : ∀ xs ys : List String, xs ≠ [] → ys ≠ [] →
    (∀ s ∈ xs, goodName s = true) → (∀ s ∈ ys, goodName s = true) →
    joinSep '/' xs = joinSep '/' ys → xs = ys := by
  intro xs
  induction xs with
  | nil =>
    intro ys hxs
    exact absurd rfl hxs
  | cons s xr ih =>
    intro ys _ hys hgx hgy heq
    have hchars : joinSepChars '/' (s :: xr) = joinSepChars '/' ys := by
      have h2 := congrArg String.data heq
      simpa [joinSep] using h2
    cases ys with
    | nil => exact absurd rfl hys
    | cons t yr =>
      cases xr with
      | nil =>
        cases yr with
        | nil =>
          simp only [joinSepChars] at hchars
          have hst : s = t := congrArg String.mk hchars
          rw [hst]
        | cons t2 tr =>
          simp only [joinSepChars] at hchars
          have hmem : '/' ∈ s.data := by
            rw [hchars]
            exact List.mem_append.mpr (Or.inr (List.mem_cons_self _ _))
          exact absurd hmem (noSlash_of_good (hgx s (List.mem_cons_self _ _)))
      | cons s2 sr =>
        cases yr with
        | nil =>
          simp only [joinSepChars] at hchars
          have hmem : '/' ∈ t.data := by
            rw [← hchars]
            exact List.mem_append.mpr (Or.inr (List.mem_cons_self _ _))
          exact absurd hmem (noSlash_of_good (hgy t (List.mem_cons_self _ _)))
        | cons t2 tr =>
          simp only [joinSepChars] at hchars
          obtain ⟨hst, htail⟩ := split_at_sep s.data
            (noSlash_of_good (hgx s (List.mem_cons_self _ _)))
            (noSlash_of_good (hgy t (List.mem_cons_self _ _))) hchars
          have hs_eq : s = t := congrArg String.mk hst
          have htails : (s2 :: sr) = (t2 :: tr) := by
            refine ih (t2 :: tr) (by simp) (by simp) ?_ ?_ ?_
            · exact fun x hx => hgx x (List.mem_cons_of_mem _ hx)
            · exact fun x hx => hgy x (List.mem_cons_of_mem _ hx)
            · exact congrArg String.mk htail
          rw [hs_eq, htails]

/-- C9: in any single successful run, the file records produced by
`scan_files` over a well-formed tree have pairwise-distinct `path` fields. -/
theorem scan_paths_distinct (base : EList) (url : String) (hw : wfL base = true)
    (rs : List FileRec) (hok : scan_files base url = .ok rs) :
    (rs.map FileRec.path).Nodup := by
  have hgood : goodNamesL base = true := by
    simp only [wfL, Bool.and_eq_true] at hw
    exact hw.1
  have hnodup : nodupL base = true := by
    simp only [wfL, Bool.and_eq_true] at hw
    exact hw.2
  have hrec := buildRecords_ok '/' url _ rs hok
  subst hrec
  rw [List.map_map]
  have hfun : (FileRec.path ∘ fun pc : List String × Option (List Nat) =>
      mkFileRec '/' url pc.1 (pc.2.getD [])) =
      (fun p => relPath '/' p) ∘ Prod.fst := rfl
  rw [hfun, ← List.map_map]
  refine List.Nodup.map_on ?_ (scanListing_fst_nodup base hnodup)
  intro x hx y hy hxy
  obtain ⟨pcx, hpcx, rfl⟩ := List.mem_map.mp hx
  obtain ⟨pcy, hpcy, rfl⟩ := List.mem_map.mp hy
  have hgx := scanListing_good base hgood pcx hpcx
  have hgy := scanListing_good base hgood pcy hpcy
  rw [relPath_slash _ hgx.2, relPath_slash _ hgy.2] at hxy
  exact joinSep_inj pcx.1 pcy.1 hgx.1 hgy.1 hgx.2 hgy.2 hxy

/-- Witness for C9 on a concrete one-file tree. -/
theorem scan_paths_distinct_witness :
    wfL (.cons (.dir "mods" (.cons (.file "a" (some [])) .nil)) .nil) = true ∧
    (([ { path := "mods/a"
        , sha256 := "e3b0c44298fc1c149afbf4c8996fb92427ae41e4649b934ca495991b7852b855"
        , url := "http://u/mods/a", size := 0, required := true } ] : List FileRec).map
      FileRec.path).Nodup := by
  refine ⟨by decide, ?_⟩
  exact scan_paths_distinct (.cons (.dir "mods" (.cons (.file "a" (some [])) .nil)) .nil)
    "http://u" (by decide)
    [ { path := "mods/a"
      , sha256 := "e3b0c44298fc1c149afbf4c8996fb92427ae41e4649b934ca495991b7852b855"
      , url := "http://u/mods/a", size := 0, required := true } ] (by decide)
